import Mathlib

/-!
Formal model of the node-grouping, resource-resolution and name-sanitization
logic of the kedro-vertexai plugin.

The Python sources embedded here are:
* `kedro_vertexai/grouping.py` — `Grouping` (with its toposort-based cycle
  validation), `IdentityNodeGrouper.group` and `TagNodeGrouper.group`;
* `kedro_vertexai/config.py` — `RunConfig._config_for`, `RunConfig.resources_for`
  and `RunConfig.node_selectors_for`;
* `kedro_vertexai/utils.py` — `clean_name`;
* `kedro_vertexai/generator.py` — the op-registry keying of
  `PipelineGenerator._build_kfp_ops`.

Python dictionaries are modelled as association lists (`List (String × α)`)
with CPython ≥ 3.7 semantics: keys are unique, assignment to an existing key
keeps its position, assignment to a fresh key appends at the end, `del`
removes the entry.  Python sets are modelled as lists considered up to
membership.
-/

namespace KedroVertexAI

/-- A kedro pipeline node, reduced to the attributes the grouping code reads:
its `name` (unique within a pipeline) and its `tags`.  Kedro stores tags as a
Python `set`; here they are a list considered up to membership (the grouping
code only filters the set and counts the distinct matches, so order is
irrelevant). -/
structure Node where
  name : String
  tags : List String
deriving DecidableEq, Repr

/-- `d[k] = v` on an association-list dictionary: replace the value in place
when the key is present (CPython keeps the key's position), append when
absent. -/
def dictSet {α : Type} (k : String) (v : α) : List (String × α) → List (String × α)
  | [] => [(k, v)]
  | (k', v') :: rest => if k' = k then (k, v) :: rest else (k', v') :: dictSet k v rest

/-- `del d[k]` on an association-list dictionary. -/
def dictErase {α : Type} (k : String) (d : List (String × α)) : List (String × α) :=
  d.filter (fun p => p.1 ≠ k)

/-- `d.get(k)` / `d[k]` lookup (first entry with the key). -/
def dictGet {α : Type} (k : String) : List (String × α) → Option α
  | [] => none
  | (k', v') :: rest => if k' = k then some v' else dictGet k rest

/-- Python `set.add`: append the element unless already present. -/
def setAdd (v : String) (s : List String) : List String :=
  if v ∈ s then s else s ++ [v]

/-- Python `set.union` (for node sets): members of either side, keeping the
left operand's elements first and appending the fresh ones. -/
def setUnion (a b : List Node) : List Node :=
  a ++ b.filter (fun n => ¬ n ∈ a)

/-- Characters Python's `re` counts as word characters in `clean_name`'s
pattern, restricted to ASCII: letters, digits and the underscore. -/
def isWordChar (c : Char) : Bool :=
  c.isAlphanum || c = '_'

/-- One `re.sub(r"[\W_]+", "-", ·)` pass on the character list: every maximal
run of characters matching `[\W_]` (i.e. non-alphanumeric characters) is
replaced by a single hyphen.  `[\W_]` matches exactly the non-alphanumeric
characters, because `_` is the only word character it adds back.  The `inRun`
flag records whether the previous character was part of such a run (in which
case the run's single hyphen has already been emitted). -/
def subNonWordAux : Bool → List Char → List Char
  | _, [] => []
  | inRun, c :: cs =>
    if c.isAlphanum then c :: subNonWordAux false cs
    else if inRun then subNonWordAux true cs
    else '-' :: subNonWordAux true cs

/-- `re.sub(r"[\W_]+", "-", ·)` on a character list. -/
def subNonWord (l : List Char) : List Char :=
  subNonWordAux false l

/-- Python `str.strip("-")`: drop hyphens from both ends. -/
def stripDashes (l : List Char) : List Char :=
  ((l.dropWhile (fun c => c = '-')).reverse.dropWhile (fun c => c = '-')).reverse

/-- `kedro_vertexai/utils.py`, `clean_name`:
`re.sub(r"[\W_]+", "-", name).strip("-")`. -/
def clean_name (name : String) : String :=
  String.mk (stripDashes (subNonWord name.data))

/-!  Model of the `toposort` PyPI library (the external dependency
`grouping.py` calls for cycle validation).  Its generator, forced to a list by
`Grouping.validate`, is:

```
def toposort(data):
    if len(data) == 0:
        return
    data = data.copy()
    for k, v in data.items():
        v.discard(k)               # "Ignore self dependencies."
    extra_items_in_deps = reduce(set.union, data.values()) - set(data.keys())
    data.update({item: set() for item in extra_items_in_deps})
    while True:
        ordered = set(item for item, dep in data.items() if len(dep) == 0)
        if not ordered:
            break
        yield ordered
        data = {item: (dep - ordered) for item, dep in data.items()
                if item not in ordered}
    if len(data) != 0:
        raise CircularDependencyError(data)
```

Note the library explicitly discards self dependencies before sorting. -/

/-- One `while`-iteration rebuild of `data`: keep the entries whose dependency
set is still non-empty and subtract the emitted `ordered` items from every
remaining dependency set. -/
def toposortStep (ordered : List String) (data : List (String × List String)) :
    List (String × List String) :=
  (data.filter (fun p => ¬ p.2.isEmpty)).map
    (fun p => (p.1, p.2.filter (fun d => ¬ d ∈ ordered)))

/-- The `while` loop of `toposort`, with explicit fuel.  Each successful
iteration emits at least one item and removes it from `data`, so the loop runs
at most `data.length` times before `data` is empty; `fuel = data.length` makes
this function equal to the unbounded Python loop.  `none` models
`CircularDependencyError`. -/
def toposortLoop : Nat → List (String × List String) → Option (List (List String))
  | _, [] => some []
  | 0, _ :: _ => none
  | fuel + 1, p :: ps =>
    let data := p :: ps
    let ordered := (data.filter (fun q => q.2.isEmpty)).map Prod.fst
    if ordered.isEmpty then none
    else
      match toposortLoop fuel (toposortStep ordered data) with
      | none => none
      | some rest => some (ordered :: rest)

/-- The preprocessing of `toposort`: discard self dependencies, then add every
item that occurs only inside a dependency set as a key with an empty
dependency set. -/
def toposortPrep (data : List (String × List String)) : List (String × List String) :=
  let data1 := data.map (fun p => (p.1, p.2.filter (fun d => d ≠ p.1)))
  let keys := data1.map Prod.fst
  let extra := ((data1.map Prod.snd).flatten.filter (fun d => ¬ d ∈ keys)).dedup
  data1 ++ extra.map (fun d => (d, ([] : List String)))

/-- `list(toposort(data))`: `some levels` on success, `none` when the library
raises `CircularDependencyError`. -/
def toposort (data : List (String × List String)) : Option (List (List String)) :=
  if data.isEmpty then some []
  else toposortLoop (toposortPrep data).length (toposortPrep data)

/-- `kedro_vertexai/grouping.py`, `Grouping`: `nodes_mapping` maps a group
name to the set of nodes in the group, `dependencies` maps a group name to the
set of group names it depends on. -/
structure Grouping where
  nodes_mapping : List (String × List Node)
  dependencies : List (String × List String)
deriving DecidableEq, Repr

/-- `Grouping.__post_init__` / `Grouping.validate`: constructing a `Grouping`
runs `toposort` over `dependencies` and raises `GroupingException` when the
library raises `CircularDependencyError`.  `Except.error` carries the
exception message. -/
def mkGrouping (nodes_mapping : List (String × List Node))
    (dependencies : List (String × List String)) : Except String Grouping :=
  if (toposort dependencies).isSome then
    Except.ok { nodes_mapping := nodes_mapping, dependencies := dependencies }
  else
    Except.error "Grouping has failed because of cyclic depedency after merging nodes."

/-- `IdentityNodeGrouper.group`: one singleton group per node, named after the
node; the group dependency sets are the parent node names.  The input
`node_dependencies` is kedro's `Pipeline.node_dependencies` mapping (node →
set of parent nodes), modelled as an association list over nodes. -/
def identityGroup (node_dependencies : List (Node × List Node)) : Except String Grouping :=
  mkGrouping
    (node_dependencies.map (fun p => (p.1.name, [p.1])))
    (node_dependencies.map (fun p => (p.1.name, p.2.map Node.name)))

/-- `NodeGrouper._get_tagging`: `tagging[node.name] = node.tags` for every
node of the input mapping. -/
def getTagging (node_dependencies : List (Node × List Node)) : List (String × List String) :=
  node_dependencies.foldl (fun acc p => dictSet p.1.name p.1.tags acc) []

/-- Python `x.startswith(p)`, at the character level. -/
def strStartsWith (p x : String) : Bool :=
  x.data.take p.data.length = p.data

/-- Python `x[len(p):]`: drop the first `len(p)` characters. -/
def strDropLen (p x : String) : String :=
  String.mk (x.data.drop p.data.length)

/-- The distinct tags of a node that start with the grouping tag prefix
(`filter(lambda x: x.startswith(self.tag_prefix), node_tags)` over the tag
set; `dedup` models set-membership semantics of `node.tags`). -/
def groupingTags (tagPfx : String) (tags : List String) : List String :=
  tags.dedup.filter (fun t => strStartsWith tagPfx t)

/-- The mutable state of `TagNodeGrouper.group`'s first loop. -/
structure TGState where
  group_mapping : List (String × List Node)
  group_belonging : List (String × String)
deriving Repr

/-- The body of the `for tag in grouping_tags` loop (run for the single
grouping tag of a node): derive the group name by stripping the prefix,
create the target group's entry when absent, store the union of the target
group's set with the node's current set back into the target group's entry,
delete the node's own entry and record the node's group membership. -/
def applyTag (tagPfx : String) (name : String) (tag : String) (st : TGState) : TGState :=
  let group_name := strDropLen tagPfx tag
  let gm0 :=
    if (dictGet group_name st.group_mapping).isSome then st.group_mapping
    else st.group_mapping ++ [(group_name, ([] : List Node))]
  let cur := (dictGet group_name gm0).getD []
  let mine := (dictGet name gm0).getD []
  let gm1 := dictSet group_name (setUnion cur mine) gm0
  let gm2 := dictErase name gm1
  { group_mapping := gm2
    group_belonging := dictSet name group_name st.group_belonging }

/-- The `for name in node_names` loop of `TagNodeGrouper.group`: raise
`GroupingException` as soon as a node carries more than one distinct grouping
tag, otherwise merge the node into its tagged group (if any) and continue. -/
def tagLoop (tagPfx : String) (tagging : List (String × List String)) :
    List String → TGState → Except String TGState
  | [], st => Except.ok st
  | name :: rest, st =>
    let gtags := groupingTags tagPfx ((dictGet name tagging).getD [])
    if gtags.length > 1 then
      Except.error
        ("Inconsistent tagging for grouping, multiple tags" ++
          "with grouping prefix found in node " ++ name)
    else tagLoop tagPfx tagging rest (gtags.foldl (fun s t => applyTag tagPfx name t s) st)

/-- The second loop of `TagNodeGrouper.group`: rebuild the dependency graph at
group level.  Every child node contributes an (initially empty) entry for its
group, and an edge to each parent's group that differs from its own group.
Parents are nodes of the pipeline, hence keys of `group_belonging`; the
`getD parent.name` fallback mirrors the identity initialization and is never
taken on kedro inputs. -/
def buildGroupDeps (gb : List (String × String)) (node_dependencies : List (Node × List Node)) :
    List (String × List String) :=
  node_dependencies.foldl
    (fun gd p =>
      let group_name := (dictGet p.1.name gb).getD p.1.name
      let gd0 :=
        if (dictGet group_name gd).isSome then gd
        else gd ++ [(group_name, ([] : List String))]
      p.2.foldl
        (fun gd1 parent =>
          let pg := (dictGet parent.name gb).getD parent.name
          if pg ≠ group_name then dictSet group_name (setAdd pg ((dictGet group_name gd1).getD [])) gd1
          else gd1)
        gd0)
    []

/-- `TagNodeGrouper.group`: start from singleton groups (`group_mapping`) and
identity membership (`group_belonging`), merge every node carrying a single
grouping tag into its tagged group (raising on ambiguous tagging), rebuild the
dependencies at group level, and construct the validated `Grouping`. -/
def tagGroup (tagPfx : String) (node_dependencies : List (Node × List Node)) :
    Except String Grouping :=
  let group_mapping := node_dependencies.foldl (fun acc p => dictSet p.1.name [p.1] acc) []
  let group_belonging := node_dependencies.foldl (fun acc p => dictSet p.1.name p.1.name acc) []
  let node_names := group_mapping.map Prod.fst
  let node_tagging := getTagging node_dependencies
  match tagLoop tagPfx node_tagging node_names
      { group_mapping := group_mapping, group_belonging := group_belonging } with
  | Except.error e => Except.error e
  | Except.ok st =>
    mkGrouping st.group_mapping (buildGroupDeps st.group_belonging node_dependencies)

/-- `d1.update(d2)` on association-list dictionaries. -/
def dictUpdate {α : Type} (d overlay : List (String × α)) : List (String × α) :=
  overlay.foldl (fun acc p => dictSet p.1 p.2 acc) d

/-- `kedro_vertexai/config.py`, `ResourcesConfig`: three optional string
fields.  `ResourcesConfig.dict()` lists every field, a null field as `none`. -/
structure ResourcesConfig where
  cpu : Option String := none
  gpu : Option String := none
  memory : Option String := none
deriving DecidableEq, Repr

/-- `ResourcesConfig.dict()` (pydantic): a dict with all three fields, null
fields included as `None` values. -/
def ResourcesConfig.dict (r : ResourcesConfig) : List (String × Option String) :=
  [("cpu", r.cpu), ("gpu", r.gpu), ("memory", r.memory)]

/-- `RunConfig._config_for(node, tags, params, default_config)`: candidate
names are the tags followed by the node name, kept when present in `params`;
the result starts from `default_config` (or `{}`), and each candidate's
config dict is overlaid with its non-null values only
(`results.update({k: v for k, v in configs.items() if v is not None})`).
Spec entries arrive here already in dict form, with null fields as `none`. -/
def config_for (node : String) (tags : List String)
    (params : List (String × List (String × Option String)))
    (default_config : Option (List (String × Option String))) :
    List (String × Option String) :=
  let names := tags ++ [node]
  let filled_names := names.filter (fun x => (dictGet x params).isSome)
  filled_names.foldl
    (fun results name =>
      let configs := (dictGet name params).getD []
      dictUpdate results (configs.filter (fun kv => kv.2 ≠ none)))
    (default_config.getD [])

/-- `RunConfig.resources_for(node, tags)`: `{}` when the `resources` section
is null, otherwise `_config_for` seeded with `resources["__default__"].dict()`
— `none` models the `KeyError` when no `__default__` entry exists. -/
def resources_for (resources : Option (List (String × ResourcesConfig)))
    (node : String) (tags : List String) : Option (List (String × Option String)) :=
  match resources with
  | none => some []
  | some rs =>
    match dictGet "__default__" rs with
    | none => none
    | some d =>
      some (config_for node tags (rs.map (fun p => (p.1, p.2.dict))) (some d.dict))

/-- `RunConfig.node_selectors_for(node, tags)`: `{}` when the
`node_selectors` section is null, otherwise `_config_for` with no default.
Selector dicts have plain string values, injected as non-null options. -/
def node_selectors_for (node_selectors : Option (List (String × List (String × String))))
    (node : String) (tags : List String) : List (String × Option String) :=
  match node_selectors with
  | none => []
  | some sel =>
    config_for node tags
      (sel.map (fun p => (p.1, p.2.map (fun kv => (kv.1, some kv.2))))) none

/-- The op registry built by `PipelineGenerator._build_kfp_ops`: for each node
of `node_dependencies`, in order, `kfp_ops[clean_name(node.name)] = op`.
The container-op payload (an external kfp object built from the node) is
abstracted to the node's original name, which determines it; the optional
`mlflow-start-run` bootstrap entry, keyed by a constant name, is omitted.
No emptiness or collision check guards the assignment. -/
def buildKfpOps (nodes : List Node) : List (String × String) :=
  nodes.foldl (fun ops node => dictSet (clean_name node.name) node.name ops) []

/-- `a` depends on `b` in a dependency dictionary: some entry for `a` lists
`b` in its dependency set. -/
def depRel (data : List (String × List String)) (a b : String) : Prop :=
  ∃ p, p ∈ data ∧ p.1 = a ∧ b ∈ p.2

/-- A dependency edge between two distinct items. -/
def strictDepRel (data : List (String × List String)) (a b : String) : Prop :=
  depRel data a b ∧ a ≠ b

/-- The dependency dictionary contains a cycle: some item transitively
depends on itself. -/
def hasCycle (data : List (String × List String)) : Prop :=
  ∃ a, Relation.TransGen (depRel data) a a

/-- Every dependency mentioned in the dictionary is itself a key. -/
def closedDeps (data : List (String × List String)) : Prop :=
  ∀ p, p ∈ data → ∀ x, x ∈ p.2 → ∃ q, q ∈ data ∧ q.1 = x

/-- The keys of an association-list dictionary are distinct (always true of a
Python dict). -/
def nodupKeys {α : Type} (d : List (String × α)) : Prop :=
  (d.map Prod.fst).Nodup

instance {α : Type} (d : List (String × α)) : Decidable (nodupKeys d) :=
  List.nodupDecidable _

/-- The level index of an item in a toposort result: the position of the
first level containing it. -/
def rankIn (levels : List (List String)) (a : String) : Option Nat :=
  match levels with
  | [] => none
  | lv :: rest => if a ∈ lv then some 0 else (rankIn rest a).map (· + 1)

/-- Proof device for the completeness direction of the cycle validation:
one deterministic step of a dependency walk, from a key to the first
dependency of its entry (identity when the entry is absent or empty). -/
def chooseDep (data : List (String × List String)) (a : String) : String :=
  match dictGet a data with
  | some (b :: _) => b
  | _ => a

/-- The iterated dependency walk. -/
def depChain (data : List (String × List String)) (a : String) : Nat → String
  | 0 => a
  | n + 1 => chooseDep data (depChain data a n)

theorem dictGet_dictSet_self {α : Type} (k : String) (v : α) (d : List (String × α)) :
    dictGet k (dictSet k v d) = some v := by
  induction d with
  | nil => simp [dictSet, dictGet]
  | cons p rest ih =>
    by_cases h : p.1 = k
    · simp [dictSet, h, dictGet]
    · simp [dictSet, h, dictGet, ih]

theorem dictGet_dictSet_ne {α : Type} {k' k : String} (v : α) (d : List (String × α))
    (h : k' ≠ k) : dictGet k' (dictSet k v d) = dictGet k' d := by
  induction d with
  | nil => simp [dictSet, dictGet, Ne.symm h]
  | cons p rest ih =>
    by_cases hp : p.1 = k
    · subst hp
      simp [dictSet, dictGet, Ne.symm h, h]
    · by_cases hk : p.1 = k'
      · simp [dictSet, hp, dictGet, hk, h]
      · simp [dictSet, hp, dictGet, hk, h, ih]

theorem dictGet_dictErase_self {α : Type} (k : String) (d : List (String × α)) :
    dictGet k (dictErase k d) = none := by
  induction d with
  | nil => simp [dictErase, dictGet]
  | cons p rest ih =>
    simp only [dictErase, List.filter_cons] at ih ⊢
    by_cases h : p.1 = k
    · simpa [h] using ih
    · simpa [h, dictGet] using ih

theorem dictGet_dictErase_ne {α : Type} {k' k : String} (d : List (String × α))
    (h : k' ≠ k) : dictGet k' (dictErase k d) = dictGet k' d := by
  induction d with
  | nil => simp [dictErase, dictGet]
  | cons p rest ih =>
    simp only [dictErase, List.filter_cons] at ih ⊢
    by_cases hp : p.1 = k
    · have hpk' : p.1 ≠ k' := fun hh => h (by rw [← hh, hp])
      simpa [hp, dictGet, hpk', Ne.symm h] using ih
    · by_cases hk : p.1 = k'
      · simp [hp, dictGet, hk, h]
      · simpa [hp, dictGet, hk] using ih

theorem dictGet_append {α : Type} (k : String) (d₁ d₂ : List (String × α)) :
    dictGet k (d₁ ++ d₂) =
      match dictGet k d₁ with
      | some v => some v
      | none => dictGet k d₂ := by
  induction d₁ with
  | nil => simp [dictGet]
  | cons p rest ih =>
    by_cases h : p.1 = k
    · simp [dictGet, h]
    · simp [dictGet, h, ih]

theorem dictGet_mem {α : Type} {k : String} {v : α} {d : List (String × α)}
    (h : dictGet k d = some v) : (k, v) ∈ d := by
  induction d with
  | nil => simp [dictGet] at h
  | cons p rest ih =>
    by_cases hp : p.1 = k
    · simp only [dictGet, hp, if_pos] at h
      obtain ⟨k1, v1⟩ := p
      simp only at hp
      subst hp
      cases h
      exact List.mem_cons_self _ _
    · simp only [dictGet, hp, if_neg, not_false_iff] at h
      exact List.mem_cons_of_mem _ (ih h)

theorem mem_dictSet {α : Type} {k' : String} {v' : α} {k : String} {v : α}
    {d : List (String × α)} (h : (k', v') ∈ dictSet k v d) :
    (k' = k ∧ v' = v) ∨ (k', v') ∈ d := by
  induction d with
  | nil =>
    simp [dictSet] at h
    exact Or.inl h
  | cons p rest ih =>
    by_cases hp : p.1 = k
    · simp only [dictSet, hp, if_pos] at h
      rcases List.mem_cons.mp h with h1 | h1
      · obtain ⟨hk, hv⟩ := Prod.mk.injEq .. ▸ h1
        exact Or.inl ⟨hk, hv⟩
      · exact Or.inr (List.mem_cons_of_mem _ h1)
    · simp only [dictSet, hp, if_neg, not_false_iff] at h
      rcases List.mem_cons.mp h with h1 | h1
      · exact Or.inr (List.mem_cons.mpr (Or.inl h1))
      · rcases ih h1 with h2 | h2
        · exact Or.inl h2
        · exact Or.inr (List.mem_cons_of_mem _ h2)

theorem mem_setAdd_iff {x v : String} {s : List String} :
    x ∈ setAdd v s ↔ x ∈ s ∨ x = v := by
  unfold setAdd
  by_cases h : v ∈ s
  · simp only [if_pos h]
    constructor
    · exact Or.inl
    · rintro (hx | rfl)
      · exact hx
      · exact h
  · simp [if_neg h]

theorem mem_setUnion_right {n : Node} {a b : List Node} (h : n ∈ b) :
    n ∈ setUnion a b := by
  unfold setUnion
  by_cases ha : n ∈ a
  · exact List.mem_append_left _ ha
  · exact List.mem_append_right _ (List.mem_filter.mpr ⟨h, by simpa using ha⟩)

theorem mem_setUnion_left {n : Node} {a b : List Node} (h : n ∈ a) :
    n ∈ setUnion a b :=
  List.mem_append_left _ h

theorem dictGet_dictUpdate_not_mem {α : Type} {k : String} {d overlay : List (String × α)}
    (h : ∀ p, p ∈ overlay → p.1 ≠ k) :
    dictGet k (dictUpdate d overlay) = dictGet k d := by
  induction overlay generalizing d with
  | nil => rfl
  | cons p rest ih =>
    have hp : p.1 ≠ k := h p (List.mem_cons_self _ _)
    calc dictGet k (dictUpdate (dictSet p.1 p.2 d) rest)
        = dictGet k (dictSet p.1 p.2 d) := ih (fun q hq => h q (List.mem_cons_of_mem _ hq))
      _ = dictGet k d := dictGet_dictSet_ne _ _ (fun hh => hp hh.symm)

theorem dictGet_dictUpdate_mem {α : Type} {k : String} {v : α} {d overlay : List (String × α)}
    (hnd : nodupKeys overlay) (h : (k, v) ∈ overlay) :
    dictGet k (dictUpdate d overlay) = some v := by
  induction overlay generalizing d with
  | nil => cases h
  | cons p rest ih =>
    rcases List.mem_cons.mp h with h1 | h1
    · subst h1
      have hk : ∀ q, q ∈ rest → q.1 ≠ k := by
        intro q hq hqk
        have : k ∉ rest.map Prod.fst := by
          simpa [nodupKeys] using (List.nodup_cons.mp hnd).1
        exact this (hqk ▸ List.mem_map_of_mem Prod.fst hq)
      calc dictGet k (dictUpdate (dictSet k v d) rest)
          = dictGet k (dictSet k v d) := dictGet_dictUpdate_not_mem hk
        _ = some v := dictGet_dictSet_self _ _ _
    · exact ih (List.nodup_cons.mp hnd).2 h1

/-- Folding `dictSet` over a list with fresh, distinct keys just appends the
list to the accumulator. -/
theorem foldl_dictSet_eq_append {α : Type} :
    ∀ (l : List (String × α)) (acc : List (String × α)),
      nodupKeys (acc ++ l) →
      l.foldl (fun a p => dictSet p.1 p.2 a) acc = acc ++ l := by
  intro l
  induction l with
  | nil => intro acc _; simp
  | cons p rest ih =>
    intro acc hnd
    have hfresh : dictGet p.1 acc = none := by
      rcases hget : dictGet p.1 acc with _ | v
      · rfl
      · exfalso
        have hmem := dictGet_mem hget
        have : (acc ++ p :: rest).map Prod.fst =
            acc.map Prod.fst ++ p.1 :: rest.map Prod.fst := by simp
        rw [nodupKeys, this] at hnd
        have hdisj := List.disjoint_of_nodup_append hnd
        exact hdisj (List.mem_map_of_mem Prod.fst hmem) (List.mem_cons_self _ _)
    have hset : dictSet p.1 p.2 acc = acc ++ [p] := by
      clear hnd ih
      induction acc with
      | nil => simp [dictSet]
      | cons q qrest ihq =>
        have hq : q.1 ≠ p.1 := by
          intro hh
          simp [dictGet, hh] at hfresh
        have hrest : dictGet p.1 qrest = none := by
          simpa [dictGet, hq] using hfresh
        simp [dictSet, hq, ihq hrest]
    rw [List.foldl_cons, hset, ih (acc ++ [p]) (by simpa using hnd)]
    simp

/-- Looking up a key built by mapping over a list with distinct keys. -/
theorem dictGet_map_of_mem {β : Type} {α : Type} {l : List β} {q : β}
    (key : β → String) (val : β → α) (hnd : (l.map key).Nodup) (hq : q ∈ l) :
    dictGet (key q) (l.map (fun b => (key b, val b))) = some (val q) := by
  induction l with
  | nil => cases hq
  | cons b rest ih =>
    rcases List.mem_cons.mp hq with h1 | h1
    · subst h1
      simp [dictGet]
    · have hne : key b ≠ key q := by
        intro hh
        have : key q ∈ rest.map key := List.mem_map_of_mem key h1
        rw [← hh] at this
        exact (List.nodup_cons.mp hnd).1 this
      simp only [List.map_cons, dictGet, hne, if_neg]
      exact ih (List.nodup_cons.mp hnd).2 h1

/-- Folding overlays none of which mentions key `k` leaves `k`'s binding
untouched. -/
theorem dictGet_foldl_update_not_mem {k : String}
    (f : String → List (String × Option String)) :
    ∀ (l : List String) (init : List (String × Option String)),
      (∀ nm, nm ∈ l → ∀ p, p ∈ f nm → p.1 ≠ k) →
      dictGet k (l.foldl (fun acc nm => dictUpdate acc (f nm)) init) = dictGet k init := by
  intro l
  induction l with
  | nil => intro init _; rfl
  | cons nm rest ih =>
    intro init h
    rw [List.foldl_cons]
    calc dictGet k (rest.foldl (fun acc x => dictUpdate acc (f x)) (dictUpdate init (f nm)))
        = dictGet k (dictUpdate init (f nm)) :=
          ih _ (fun x hx p hp => h x (List.mem_cons_of_mem _ hx) p hp)
      _ = dictGet k init :=
          dictGet_dictUpdate_not_mem (fun p hp => h nm (List.mem_cons_self _ _) p hp)

/-- C6: on the three-node pipeline `A → B → C` with `B` and `C` tagged
`group.bc`, tag grouping with prefix `group.` yields exactly
`nodes_mapping = {"A": {A}, "bc": {B, C}}` and
`dependencies = {"A": ∅, "bc": {"A"}}`. -/
theorem tagGroup_roundtrip_example :
    (tagGroup "group."
        [(⟨"A", []⟩, []),
         (⟨"B", ["group.bc"]⟩, [⟨"A", []⟩]),
         (⟨"C", ["group.bc"]⟩, [⟨"B", ["group.bc"]⟩])]).toOption =
      some
        { nodes_mapping :=
            [("A", [⟨"A", []⟩]), ("bc", [⟨"B", ["group.bc"]⟩, ⟨"C", ["group.bc"]⟩])]
          dependencies := [("A", []), ("bc", ["A"])] } := by
  decide

/-- C7: resolution starts from the default, overlays each matching candidate's
non-null fields, applies the target-name entry last (so it wins over tag
entries on conflicting keys), and null fields never clear an accumulated
value; in particular the `myNode`/`tagA` example resolves to
`{cpu: "1", memory: "2Gi"}`. -/
theorem config_for_precedence :
    (config_for "myNode" ["tagA"]
        [("tagA", [("cpu", some "1")]), ("myNode", [("memory", some "2Gi")])]
        (some [("cpu", some "500m"), ("memory", some "1Gi")]) =
      [("cpu", some "1"), ("memory", some "2Gi")]) ∧
    (∀ (node : String) (tags : List String)
        (params : List (String × List (String × Option String)))
        (default : Option (List (String × Option String))) (k v : String),
        (dictGet node params).isSome →
        nodupKeys ((dictGet node params).getD []) →
        dictGet k ((dictGet node params).getD []) = some (some v) →
        dictGet k (config_for node tags params default) = some (some v)) ∧
    (∀ (node : String) (tags : List String)
        (params : List (String × List (String × Option String)))
        (default : Option (List (String × Option String))) (k : String),
        (∀ nm, nm ∈ tags ++ [node] → ∀ p, p ∈ (dictGet nm params).getD [] →
          p.1 = k → p.2 = none) →
        dictGet k (config_for node tags params default) = dictGet k (default.getD [])) := by
  refine ⟨by rfl, ?_, ?_⟩
  · intro node tags params default k v hsome hnd hget
    rcases hcfg : dictGet node params with _ | cfg
    · rw [hcfg] at hsome; cases hsome
    · rw [hcfg] at hnd hget
      simp only [Option.getD_some] at hnd hget
      simp only [config_for]
      have hpred : (decide ((dictGet node params).isSome = true)) = true := by
        simp [hcfg]
      rw [List.filter_append, List.filter_singleton]
      simp only [hcfg, Option.isSome_some, decide_True, if_pos, Bool.cond_true]
      rw [List.foldl_append, List.foldl_cons, List.foldl_nil]
      have hmem : (k, some v) ∈ cfg.filter (fun kv => kv.2 ≠ none) := by
        refine List.mem_filter.mpr ⟨dictGet_mem hget, by simp⟩
      have hndf : nodupKeys (cfg.filter (fun kv => kv.2 ≠ none)) := by
        exact List.Nodup.sublist
          (List.Sublist.map Prod.fst (List.filter_sublist cfg)) hnd
      rw [hcfg]
      simpa using dictGet_dictUpdate_mem hndf hmem
  · intro node tags params default k h
    simp only [config_for]
    apply dictGet_foldl_update_not_mem
    intro nm hnm p hp hpk
    have hnm' : nm ∈ tags ++ [node] := List.mem_of_mem_filter hnm
    have hpm : p ∈ (dictGet nm params).getD [] := List.mem_of_mem_filter hp
    have hnone := h nm hnm' p hpm hpk
    have : ¬ (p.2 = none) := by simpa using (List.mem_filter.mp hp).2
    exact this hnone

/-- Closed instances of C7's general clauses: the node-name entry wins
(`cpu` resolves to its value), and a null field does not clear the default
(`memory` stays at the default value). -/
theorem config_for_precedence_witness :
    dictGet "cpu" (config_for "n" ["t"] [("n", [("cpu", some "2")])]
        (some [("cpu", some "1")])) = some (some "2") ∧
    dictGet "memory" (config_for "n" [] [("n", [("memory", none)])]
        (some [("memory", some "1Gi")])) = some (some "1Gi") := by
  constructor
  · exact config_for_precedence.2.1 "n" ["t"] _ _ "cpu" "2" (by decide) (by decide) (by decide)
  · exact (config_for_precedence.2.2 "n" [] _ _ "memory" (by decide)).trans (by decide)

/-- C9: when neither the target name nor any tag matches a spec entry the
result is the default unchanged; with no default it is the empty mapping; a
null `node_selectors` section also resolves to the empty mapping.  None of
these situations is an error: resolution is total. -/
theorem config_for_no_match :
    (∀ (node : String) (tags : List String)
        (specs : List (String × List (String × Option String)))
        (d : List (String × Option String)),
        (∀ t, t ∈ tags → dictGet t specs = none) → dictGet node specs = none →
        config_for node tags specs (some d) = d) ∧
    (∀ (node : String) (tags : List String)
        (specs : List (String × List (String × Option String))),
        (∀ t, t ∈ tags → dictGet t specs = none) → dictGet node specs = none →
        config_for node tags specs none = []) ∧
    (∀ (node : String) (tags : List String),
        node_selectors_for none node tags = []) := by
  have hmain : ∀ (node : String) (tags : List String)
      (specs : List (String × List (String × Option String)))
      (default : Option (List (String × Option String))),
      (∀ t, t ∈ tags → dictGet t specs = none) → dictGet node specs = none →
      config_for node tags specs default = default.getD [] := by
    intro node tags specs default htags hnode
    simp only [config_for]
    have hfil : (tags ++ [node]).filter (fun x => (dictGet x specs).isSome) = [] := by
      apply List.filter_eq_nil_iff.mpr
      intro a ha
      rcases List.mem_append.mp ha with h1 | h1
      · simp [htags a h1]
      · simp only [List.mem_singleton] at h1
        simp [h1, hnode]
    rw [hfil, List.foldl_nil]
  exact ⟨fun node tags specs d h1 h2 => hmain node tags specs (some d) h1 h2,
    fun node tags specs h1 h2 => hmain node tags specs none h1 h2,
    fun node tags => rfl⟩

/-- Closed instance of C9: a target and tag absent from the specs leave the
default untouched. -/
theorem config_for_no_match_witness :
    config_for "n" ["t"] [("other", [("cpu", some "9")])]
        (some [("cpu", some "1")]) = [("cpu", some "1")] :=
  config_for_no_match.1 "n" ["t"] _ _ (by decide) (by decide)

/-- C8 counterexample: `"node-1"` and `"node:1"` sanitize to the same unit
name, yet `_build_kfp_ops` raises nothing — the op registry silently keeps
only the later node under the shared key; an empty sanitized name is likewise
used as a key without any error. -/
theorem buildKfpOps_counterexample :
    clean_name "node:1" = "node-1" ∧ clean_name "node-1" = "node-1" ∧
    buildKfpOps [⟨"node-1", []⟩, ⟨"node:1", []⟩] = [("node-1", "node:1")] ∧
    clean_name "###" = "" ∧
    buildKfpOps [⟨"###", []⟩] = [("", "###")] := by
  decide

/-- C8 (amended): `_build_kfp_ops` performs no emptiness or collision check on
sanitized unit names; the registry binds each sanitized name to the op of the
last node that sanitizes to it (silently overwriting earlier ones), and an
empty sanitized name is used as an ordinary key. -/
theorem buildKfpOps_last_wins :
    ∀ (nodes : List Node) (k : String),
      dictGet k (buildKfpOps nodes) =
        (nodes.filter (fun n => clean_name n.name = k)).getLast?.map Node.name := by
  intro nodes
  induction nodes using List.reverseRecOn with
  | nil => intro k; rfl
  | append_singleton ns n ih =>
    intro k
    have hfold : buildKfpOps (ns ++ [n]) =
        dictSet (clean_name n.name) n.name (buildKfpOps ns) := by
      unfold buildKfpOps
      rw [List.foldl_append, List.foldl_cons, List.foldl_nil]
    rw [hfold]
    by_cases hk : clean_name n.name = k
    · subst hk
      rw [dictGet_dictSet_self]
      have hfil2 : (ns ++ [n]).filter (fun m => clean_name m.name = clean_name n.name) =
          ns.filter (fun m => clean_name m.name = clean_name n.name) ++ [n] := by
        rw [List.filter_append]
        simp
      rw [hfil2, List.getLast?_concat]
      rfl
    · rw [dictGet_dictSet_ne _ _ (fun hh => hk hh.symm), ih k]
      have hfil2 : (ns ++ [n]).filter (fun m => clean_name m.name = k) =
          ns.filter (fun m => clean_name m.name = k) := by
        rw [List.filter_append]
        simp [hk]
      rw [hfil2]

theorem mem_subNonWordAux :
    ∀ (b : Bool) (l : List Char) (c : Char),
      c ∈ subNonWordAux b l → c.isAlphanum ∨ c = '-' := by
  intro b l
  induction l generalizing b with
  | nil => intro c hc; cases hc
  | cons d ds ih =>
    intro c hc
    by_cases ha : d.isAlphanum
    · rw [subNonWordAux, if_pos ha] at hc
      rcases List.mem_cons.mp hc with h1 | h1
      · exact Or.inl (h1 ▸ ha)
      · exact ih false c h1
    · rw [subNonWordAux, if_neg ha] at hc
      cases b with
      | true => exact ih true c hc
      | false =>
        rcases List.mem_cons.mp hc with h1 | h1
        · exact Or.inr h1
        · exact ih true c h1

theorem head_subNonWordAux_true :
    ∀ (l : List Char) (c : Char),
      (subNonWordAux true l).head? = some c → c.isAlphanum := by
  intro l
  induction l with
  | nil => intro c hc; cases hc
  | cons d ds ih =>
    intro c hc
    by_cases ha : d.isAlphanum
    · rw [subNonWordAux, if_pos ha] at hc
      cases hc
      exact ha
    · rw [subNonWordAux, if_neg ha] at hc
      exact ih c hc

theorem chain_subNonWordAux :
    ∀ (b : Bool) (l : List Char),
      (subNonWordAux b l).Chain' (fun a c => ¬(a = '-' ∧ c = '-')) := by
  intro b l
  induction l generalizing b with
  | nil => cases b <;> exact List.chain'_nil
  | cons d ds ih =>
    by_cases ha : d.isAlphanum
    · rw [subNonWordAux, if_pos ha]
      refine List.chain'_cons'.mpr ⟨?_, ih false⟩
      intro y _
      rintro ⟨hd, _⟩
      rw [hd] at ha
      exact absurd ha (by decide)
    · rw [subNonWordAux, if_neg ha]
      cases b with
      | true => exact ih true
      | false =>
        refine List.chain'_cons'.mpr ⟨?_, ih true⟩
        intro y hy
        rintro ⟨_, hy'⟩
        have := head_subNonWordAux_true ds y hy
        rw [hy'] at this
        exact absurd this (by decide)

theorem head_dropWhile_char (q : Char → Bool) :
    ∀ (l : List Char) (c : Char), (l.dropWhile q).head? = some c → q c = false := by
  intro l
  induction l with
  | nil => intro c hc; cases hc
  | cons d ds ih =>
    intro c hc
    by_cases hq : q d
    · rw [List.dropWhile_cons_of_pos hq] at hc
      exact ih c hc
    · rw [List.dropWhile_cons_of_neg hq] at hc
      cases hc
      simpa using hq

theorem subNonWordAux_false_fix :
    ∀ (l : List Char), (∀ c ∈ l, c.isAlphanum ∨ c = '-') →
      (l.Chain' (fun a c => ¬(a = '-' ∧ c = '-'))) → subNonWordAux false l = l
  | [], _, _ => rfl
  | [c], hc, _ => by
    by_cases ha : c.isAlphanum
    · rw [subNonWordAux, if_pos ha]
      rfl
    · have hdash : c = '-' := (hc c (List.mem_cons_self _ _)).resolve_left ha
      subst hdash
      rw [subNonWordAux, if_neg ha, if_neg (by decide : ¬ (false = true))]
      rfl
  | c :: d :: cs', hc, hch => by
    by_cases ha : c.isAlphanum
    · rw [subNonWordAux, if_pos ha]
      rw [subNonWordAux_false_fix (d :: cs')
        (fun x hx => hc x (List.mem_cons_of_mem _ hx)) (List.Chain'.tail hch)]
    · have hdash : c = '-' := (hc c (List.mem_cons_self _ _)).resolve_left ha
      subst hdash
      have hd : ¬ (d = '-') := by
        have := (List.chain'_cons'.mp hch).1 d rfl
        intro hdd
        exact this ⟨rfl, hdd⟩
      have hda : d.isAlphanum :=
        (hc d (List.mem_cons_of_mem _ (List.mem_cons_self _ _))).resolve_right hd
      rw [subNonWordAux, if_neg ha, if_neg (by decide : ¬ (false = true))]
      rw [subNonWordAux, if_pos hda]
      rw [subNonWordAux_false_fix cs'
        (fun x hx => hc x (List.mem_cons_of_mem _ (List.mem_cons_of_mem _ hx)))
        (List.Chain'.tail (List.Chain'.tail hch))]
termination_by l _ _ => l.length

theorem stripDashes_fix (l : List Char)
    (hh : ∀ c, l.head? = some c → ¬ (c = '-'))
    (hl : ∀ c, l.getLast? = some c → ¬ (c = '-')) : stripDashes l = l := by
  unfold stripDashes
  have h1 : l.dropWhile (fun c => c = '-') = l := by
    cases l with
    | nil => rfl
    | cons c cs =>
      rw [List.dropWhile_cons_of_neg]
      simpa using hh c rfl
  rw [h1]
  have h2 : l.reverse.dropWhile (fun c => c = '-') = l.reverse := by
    cases hr : l.reverse with
    | nil => rfl
    | cons c cs =>
      rw [List.dropWhile_cons_of_neg]
      have : l.getLast? = some c := by
        rw [← List.head?_reverse, hr]
        rfl
      simpa using hl c this
  rw [h2, List.reverse_reverse]

/-- C10: `clean_name` output is in normal form — no underscore, every
character a word character or the hyphen separator, no leading or trailing
hyphen, no two adjacent hyphens — and therefore `clean_name` is
idempotent. -/
theorem clean_name_normal_form (s : String) :
    (¬ '_' ∈ (clean_name s).data) ∧
    (∀ c ∈ (clean_name s).data, isWordChar c ∨ c = '-') ∧
    (∀ c, (clean_name s).data.head? = some c → ¬ (c = '-')) ∧
    (∀ c, (clean_name s).data.getLast? = some c → ¬ (c = '-')) ∧
    ((clean_name s).data.Chain' (fun a c => ¬(a = '-' ∧ c = '-'))) ∧
    clean_name (clean_name s) = clean_name s := by
  have hq : ∀ c ∈ (clean_name s).data, c.isAlphanum ∨ c = '-' := by
    intro c hc
    have hmem : c ∈ subNonWord s.data := by
      unfold clean_name stripDashes at hc
      have h1 := List.mem_reverse.mp hc
      have h2 := (List.dropWhile_suffix (fun c => (c = '-' : Bool))).subset h1
      have h3 := List.mem_reverse.mp h2
      exact (List.dropWhile_suffix (fun c => (c = '-' : Bool))).subset h3
    exact mem_subNonWordAux false _ c hmem
  have hhead : ∀ c, (clean_name s).data.head? = some c → ¬ (c = '-') := by
    intro c hc
    unfold clean_name stripDashes at hc
    rw [List.head?_reverse] at hc
    have hsuf := List.dropWhile_suffix (l := (subNonWord s.data).dropWhile
      (fun c => c = '-') |>.reverse) (fun c => (c = '-' : Bool))
    obtain ⟨t, ht⟩ := hsuf
    have hne : ((subNonWord s.data).dropWhile (fun c => c = '-')).reverse.dropWhile
        (fun c => c = '-') ≠ [] := by
      intro hnil
      rw [hnil] at hc
      cases hc
    have hlast : (((subNonWord s.data).dropWhile (fun c => c = '-')).reverse.dropWhile
        (fun c => c = '-')).getLast? =
        (((subNonWord s.data).dropWhile (fun c => c = '-')).reverse).getLast? := by
      conv_rhs => rw [← ht]
      exact (List.getLast?_append_of_ne_nil _ hne).symm
    rw [hlast, List.getLast?_reverse] at hc
    have := head_dropWhile_char (fun c => (c = '-' : Bool)) (subNonWord s.data) c hc
    simpa using this
  have hlast : ∀ c, (clean_name s).data.getLast? = some c → ¬ (c = '-') := by
    intro c hc
    unfold clean_name stripDashes at hc
    rw [List.getLast?_reverse] at hc
    have := head_dropWhile_char (fun c => (c = '-' : Bool))
      (((subNonWord s.data).dropWhile (fun c => c = '-')).reverse) c hc
    simpa using this
  have hchain : (clean_name s).data.Chain' (fun a c => ¬(a = '-' ∧ c = '-')) := by
    unfold clean_name stripDashes
    have h0 : (subNonWord s.data).Chain' (fun a c => ¬(a = '-' ∧ c = '-')) :=
      chain_subNonWordAux false s.data
    have h1 : ((subNonWord s.data).dropWhile (fun c => c = '-')).Chain'
        (fun a c => ¬(a = '-' ∧ c = '-')) :=
      h0.suffix (List.dropWhile_suffix (fun c => (c = '-' : Bool)))
    have h2 : (((subNonWord s.data).dropWhile (fun c => c = '-')).reverse).Chain'
        (fun a c => ¬(a = '-' ∧ c = '-')) := by
      rw [List.chain'_reverse]
      exact h1.imp (fun a c h hac => h ⟨hac.2, hac.1⟩)
    have h3 : ((((subNonWord s.data).dropWhile (fun c => c = '-')).reverse).dropWhile
        (fun c => c = '-')).Chain' (fun a c => ¬(a = '-' ∧ c = '-')) :=
      h2.suffix (List.dropWhile_suffix (fun c => (c = '-' : Bool)))
    rw [List.chain'_reverse]
    exact h3.imp (fun a c h hac => h ⟨hac.2, hac.1⟩)
  refine ⟨?_, ?_, hhead, hlast, hchain, ?_⟩
  · intro hmem
    rcases hq '_' hmem with h | h
    · exact absurd h (by decide)
    · exact absurd h (by decide)
  · intro c hc
    rcases hq c hc with h | h
    · exact Or.inl (by simp [isWordChar, h])
    · exact Or.inr h
  · show String.mk (stripDashes (subNonWord (clean_name s).data)) = clean_name s
    rw [show subNonWord (clean_name s).data = (clean_name s).data from
      subNonWordAux_false_fix _ hq hchain]
    rw [stripDashes_fix _ hhead hlast]

theorem foldl_preserve {α β : Type} (inv : α → Prop) (f : α → β → α) :
    ∀ (l : List β) (a : α), inv a → (∀ x b, inv x → b ∈ l → inv (f x b)) →
      inv (l.foldl f a) := by
  intro l
  induction l with
  | nil => intro a ha _; exact ha
  | cons b rest ih =>
    intro a ha hstep
    rw [List.foldl_cons]
    exact ih (f a b) (hstep a b ha (List.mem_cons_self _ _))
      (fun x c hx hc => hstep x c hx (List.mem_cons_of_mem _ hc))

/-- Building a dictionary by folding `dictSet` over entries with distinct keys
yields exactly the entry list. -/
theorem foldl_dictSet_map {β α : Type} (l : List β) (key : β → String) (val : β → α)
    (hnd : (l.map key).Nodup) :
    l.foldl (fun acc b => dictSet (key b) (val b) acc) [] =
      l.map (fun b => (key b, val b)) := by
  have h1 : l.foldl (fun acc b => dictSet (key b) (val b) acc) [] =
      (l.map (fun b => (key b, val b))).foldl (fun acc q => dictSet q.1 q.2 acc) [] := by
    rw [List.foldl_map]
  rw [h1]
  have h2 : nodupKeys (([] : List (String × α)) ++ l.map (fun b => (key b, val b))) := by
    simpa [nodupKeys, Function.comp] using hnd
  simpa using foldl_dictSet_eq_append (l.map (fun b => (key b, val b))) [] h2

theorem mkGrouping_ok {nm : List (String × List Node)} {dp : List (String × List String)}
    {g : Grouping} (h : mkGrouping nm dp = Except.ok g) :
    g.nodes_mapping = nm ∧ g.dependencies = dp := by
  unfold mkGrouping at h
  by_cases hs : (toposort dp).isSome
  · rw [if_pos hs] at h
    cases h
    exact ⟨rfl, rfl⟩
  · rw [if_neg hs] at h
    cases h

theorem mkGrouping_ok_toposort {nm : List (String × List Node)}
    {dp : List (String × List String)} {g : Grouping}
    (h : mkGrouping nm dp = Except.ok g) : (toposort dp).isSome := by
  unfold mkGrouping at h
  by_cases hs : (toposort dp).isSome
  · exact hs
  · rw [if_neg hs] at h
    cases h

/-- If some name still to be processed carries at least two grouping tags,
the tagging loop cannot succeed. -/
theorem tagLoop_error (tagPfx : String) (tagging : List (String × List String)) :
    ∀ (names : List String) (st : TGState),
      (∃ m, m ∈ names ∧ 2 ≤ (groupingTags tagPfx ((dictGet m tagging).getD [])).length) →
      ∀ st', tagLoop tagPfx tagging names st ≠ Except.ok st' := by
  intro names
  induction names with
  | nil =>
    intro st hm st'
    obtain ⟨m, hm, _⟩ := hm
    cases hm
  | cons name rest ih =>
    intro st hm st'
    rw [tagLoop]
    by_cases hgt : (groupingTags tagPfx ((dictGet name tagging).getD [])).length > 1
    · rw [if_pos hgt]
      intro hco
      cases hco
    · rw [if_neg hgt]
      obtain ⟨m, hmem, hlen⟩ := hm
      rcases List.mem_cons.mp hmem with h1 | h1
      · subst h1
        omega
      · exact ih _ ⟨m, h1, hlen⟩ st'

/-- No entry of the rebuilt group dependency dictionary contains its own key:
the `group_belonging[parent.name] != group_name` guard drops such edges. -/
theorem buildGroupDeps_no_self (gb : List (String × String))
    (nd : List (Node × List Node)) :
    ∀ p ∈ buildGroupDeps gb nd, ¬ p.1 ∈ p.2 := by
  unfold buildGroupDeps
  have hinv := foldl_preserve (fun gd => ∀ p ∈ gd, ¬ p.1 ∈ p.2)
    (fun gd p =>
      let group_name := (dictGet p.1.name gb).getD p.1.name
      let gd0 :=
        if (dictGet group_name gd).isSome then gd
        else gd ++ [(group_name, ([] : List String))]
      p.2.foldl
        (fun gd1 parent =>
          let pg := (dictGet parent.name gb).getD parent.name
          if pg ≠ group_name then
            dictSet group_name (setAdd pg ((dictGet group_name gd1).getD [])) gd1
          else gd1)
        gd0)
    nd [] (by intro p hp; cases hp)
  apply hinv
  intro gd child _ _
  simp only
  set gname := (dictGet child.1.name gb).getD child.1.name with hgname
  refine foldl_preserve
    (fun gd1 : List (String × List String) => ∀ p ∈ gd1, ¬ p.1 ∈ p.2)
    _ child.2 _ ?_ ?_
  · -- the conditional append keeps the invariant: the new entry is empty
    by_cases hin : (dictGet gname gd).isSome
    · simpa [hin] using ‹∀ p ∈ gd, ¬ p.1 ∈ p.2›
    · rw [if_neg hin]
      intro p hp
      rcases List.mem_append.mp hp with h1 | h1
      · exact ‹∀ p ∈ gd, ¬ p.1 ∈ p.2› p h1
      · simp only [List.mem_singleton] at h1
        subst h1
        simp
  · intro gd1 parent hinv1 _
    by_cases hne : (dictGet parent.name gb).getD parent.name ≠ gname
    · rw [if_pos hne]
      intro p hp
      rcases mem_dictSet hp with ⟨hk, hv⟩ | hmem
      · rw [hk, hv]
        intro hcon
        rcases mem_setAdd_iff.mp hcon with h1 | h1
        · rcases hget : dictGet gname gd1 with _ | old
          · rw [hget] at h1
            cases h1
          · rw [hget] at h1
            exact hinv1 (gname, old) (dictGet_mem hget) h1
        · exact hne h1.symm
      · exact hinv1 p hmem
    · rw [if_neg hne]
      exact hinv1

/-- C4: in every `Grouping` produced by `TagNodeGrouper.group`, no group
depends on itself — an edge is only added when a parent's resolved group
differs from the child's resolved group, so `dependencies` never maps a group
name to a set containing that name. -/
theorem tagGroup_no_self_dependency (tagPfx : String) (nd : List (Node × List Node))
    (g : Grouping) (h : tagGroup tagPfx nd = Except.ok g) :
    ∀ (k : String) (s : List String), dictGet k g.dependencies = some s → ¬ k ∈ s := by
  intro k s hget hk
  simp only [tagGroup] at h
  split at h
  · cases h
  · have hdeps := (mkGrouping_ok h).2
    rw [hdeps] at hget
    exact buildGroupDeps_no_self _ nd (k, s) (dictGet_mem hget) hk

/-- Closed instance of C4: the grouped `A → B → C` pipeline has no self-edge
on group `"bc"`. -/
theorem tagGroup_no_self_dependency_witness :
    ¬ "bc" ∈ ["A"] :=
  tagGroup_no_self_dependency "group."
    [(⟨"A", []⟩, []),
     (⟨"B", ["group.bc"]⟩, [⟨"A", []⟩]),
     (⟨"C", ["group.bc"]⟩, [⟨"B", ["group.bc"]⟩])]
    { nodes_mapping :=
        [("A", [⟨"A", []⟩]), ("bc", [⟨"B", ["group.bc"]⟩, ⟨"C", ["group.bc"]⟩])]
      dependencies := [("A", []), ("bc", ["A"])] }
    rfl "bc" ["A"] rfl

/-- C3: if any node of the pipeline carries two or more distinct tags with the
grouping prefix, `TagNodeGrouper.group` raises the grouping exception — no
`Grouping` is ever returned. -/
theorem tagGroup_ambiguous_tagging_error (tagPfx : String) (nd : List (Node × List Node))
    (n : Node) (ps : List Node)
    (hnd : (nd.map (fun p => p.1.name)).Nodup)
    (hmem : (n, ps) ∈ nd)
    (htags : 2 ≤ (groupingTags tagPfx n.tags).length) :
    ∀ g, tagGroup tagPfx nd ≠ Except.ok g := by
  intro g h
  simp only [tagGroup] at h
  split at h
  · cases h
  · rename_i st heq
    have hmap : nd.foldl (fun acc p => dictSet p.1.name [p.1] acc) [] =
        nd.map (fun p => (p.1.name, [p.1])) :=
      foldl_dictSet_map nd (fun p => p.1.name) (fun p => [p.1]) hnd
    have htg : getTagging nd = nd.map (fun p => (p.1.name, p.1.tags)) := by
      simp only [getTagging]
      exact foldl_dictSet_map nd (fun p => p.1.name) (fun p => p.1.tags) hnd
    have hget : dictGet n.name (getTagging nd) = some n.tags := by
      rw [htg]
      exact dictGet_map_of_mem (fun q => q.1.name) (fun q => q.1.tags) hnd hmem
    have hname : n.name ∈ (nd.foldl (fun acc p => dictSet p.1.name [p.1] acc) []).map
        Prod.fst := by
      rw [hmap]
      have := List.mem_map_of_mem (fun p : Node × List Node => (p.1.name, [p.1])) hmem
      exact List.mem_map_of_mem Prod.fst this
    exact tagLoop_error tagPfx (getTagging nd) _ _
      ⟨n.name, hname, by rw [hget]; exact htags⟩ st heq

/-- Closed instance of C3: a node with two grouping tags makes
`TagNodeGrouper.group` fail. -/
theorem tagGroup_ambiguous_tagging_error_witness :
    tagGroup "group." [(⟨"a", ["group.g1", "group.g2"]⟩, [])] ≠
      Except.ok { nodes_mapping := [], dependencies := [] } :=
  tagGroup_ambiguous_tagging_error "group." [(⟨"a", ["group.g1", "group.g2"]⟩, [])]
    ⟨"a", ["group.g1", "group.g2"]⟩ [] (by decide) (by decide) (by decide) _

theorem applyTag_get_other (tagPfx m t : String) (st : TGState) (k : String)
    (hk1 : k ≠ strDropLen tagPfx t) (hk2 : k ≠ m) :
    dictGet k (applyTag tagPfx m t st).group_mapping = dictGet k st.group_mapping := by
  simp only [applyTag]
  rw [dictGet_dictErase_ne _ hk2, dictGet_dictSet_ne _ _ hk1]
  by_cases hin : (dictGet (strDropLen tagPfx t) st.group_mapping).isSome
  · rw [if_pos hin]
  · rw [if_neg hin, dictGet_append]
    rcases hg : dictGet k st.group_mapping with _ | v
    · simp [dictGet, hk1.symm]
    · simp

theorem applyTag_get_target (tagPfx m t : String) (st : TGState)
    (hne : strDropLen tagPfx t ≠ m) :
    ∃ cur, dictGet (strDropLen tagPfx t) (applyTag tagPfx m t st).group_mapping =
      some (setUnion cur ((dictGet m st.group_mapping).getD [])) := by
  simp only [applyTag]
  rw [dictGet_dictErase_ne _ hne, dictGet_dictSet_self]
  by_cases hin : (dictGet (strDropLen tagPfx t) st.group_mapping).isSome
  · rw [if_pos hin]
    exact ⟨_, rfl⟩
  · rw [if_neg hin]
    refine ⟨(dictGet (strDropLen tagPfx t)
      (st.group_mapping ++ [(strDropLen tagPfx t, [])])).getD [], ?_⟩
    have hm : dictGet m (st.group_mapping ++ [(strDropLen tagPfx t, [])]) =
        dictGet m st.group_mapping := by
      rw [dictGet_append]
      rcases hg : dictGet m st.group_mapping with _ | v
      · simp [dictGet, hne]
      · simp
    rw [hm]

theorem applyTag_get_erased (tagPfx m t : String) (st : TGState) :
    dictGet m (applyTag tagPfx m t st).group_mapping = none := by
  simp only [applyTag]
  exact dictGet_dictErase_self _ _

theorem applyTag_get_target_existing (tagPfx m t : String) (st : TGState)
    {s : List Node} (hX : dictGet (strDropLen tagPfx t) st.group_mapping = some s)
    (hne : strDropLen tagPfx t ≠ m) :
    dictGet (strDropLen tagPfx t) (applyTag tagPfx m t st).group_mapping =
      some (setUnion s ((dictGet m st.group_mapping).getD [])) := by
  simp only [applyTag]
  rw [dictGet_dictErase_ne _ hne, dictGet_dictSet_self]
  rw [if_pos (by rw [hX]; rfl), hX]
  rfl

/-- Once a node has been merged into its group, the remaining iterations keep
the group's entry (only ever enlarging it) and never recreate the node's own
entry, provided the remaining names differ from both and no remaining
grouping tag resolves to the node's name. -/
theorem tagLoop_preserve (tagPfx : String) (tagging : List (String × List String))
    (X xn : String) (n : Node) :
    ∀ (names : List String) (st st' : TGState),
      tagLoop tagPfx tagging names st = Except.ok st' →
      (∀ m ∈ names, m ≠ xn) →
      (∀ m ∈ names, m ≠ X) →
      (∀ m ∈ names, ∀ u ∈ groupingTags tagPfx ((dictGet m tagging).getD []),
        strDropLen tagPfx u ≠ xn) →
      ∀ s, dictGet X st.group_mapping = some s → n ∈ s →
      dictGet xn st.group_mapping = none →
      ∃ s', dictGet X st'.group_mapping = some s' ∧ n ∈ s' ∧
        dictGet xn st'.group_mapping = none := by
  intro names
  induction names with
  | nil =>
    intro st st' hrun _ _ _ s hX hn hxn
    rw [tagLoop] at hrun
    cases hrun
    exact ⟨s, hX, hn, hxn⟩
  | cons m rest ih =>
    intro st st' hrun hxn' hX' hu' s hX hn hxn
    rw [tagLoop] at hrun
    by_cases hgt : (groupingTags tagPfx ((dictGet m tagging).getD [])).length > 1
    · rw [if_pos hgt] at hrun
      cases hrun
    · rw [if_neg hgt] at hrun
      have hmx : m ≠ xn := hxn' m (List.mem_cons_self _ _)
      have hmX : m ≠ X := hX' m (List.mem_cons_self _ _)
      rcases hg : groupingTags tagPfx ((dictGet m tagging).getD []) with _ | ⟨u, us⟩
      · rw [hg] at hrun
        exact ih _ _ hrun (fun x hx => hxn' x (List.mem_cons_of_mem _ hx))
          (fun x hx => hX' x (List.mem_cons_of_mem _ hx))
          (fun x hx => hu' x (List.mem_cons_of_mem _ hx)) s hX hn hxn
      · have hus : us = [] := by
          rw [hg] at hgt
          cases us with
          | nil => rfl
          | cons v vs =>
            exfalso
            apply hgt
            simp only [List.length_cons]
            omega
        subst hus
        rw [hg] at hrun
        simp only [List.foldl_cons, List.foldl_nil] at hrun
        have hXu : strDropLen tagPfx u ≠ xn :=
          hu' m (List.mem_cons_self _ _) u (by rw [hg]; exact List.mem_cons_self _ _)
        -- the group entry X survives the step (possibly enlarged)
        have hX1 : ∃ s1, dictGet X (applyTag tagPfx m u st).group_mapping = some s1 ∧
            n ∈ s1 := by
          by_cases hXeq : X = strDropLen tagPfx u
          · subst hXeq
            rw [applyTag_get_target_existing tagPfx m u st hX (fun hh => hmX hh.symm)]
            exact ⟨_, rfl, mem_setUnion_left hn⟩
          · rw [applyTag_get_other tagPfx m u st X hXeq (fun hh => hmX hh.symm)]
            exact ⟨s, hX, hn⟩
        obtain ⟨s1, hs1, hns1⟩ := hX1
        have hxn1 : dictGet xn (applyTag tagPfx m u st).group_mapping = none := by
          rw [applyTag_get_other tagPfx m u st xn (fun hh => hXu hh.symm)
            (fun hh => hmx hh.symm)]
          exact hxn
        exact ih _ _ hrun (fun x hx => hxn' x (List.mem_cons_of_mem _ hx))
          (fun x hx => hX' x (List.mem_cons_of_mem _ hx))
          (fun x hx => hu' x (List.mem_cons_of_mem _ hx)) s1 hs1 hns1 hxn1

/-- Running the tagging loop over names containing a node with exactly one
grouping tag merges that node into its tagged group and removes its own
entry, provided names are distinct and no grouping tag resolves to a node
name. -/
theorem tagLoop_merge (tagPfx : String) (tagging : List (String × List String))
    (n : Node) (t : String) :
    ∀ (names : List String) (st st' : TGState),
      tagLoop tagPfx tagging names st = Except.ok st' →
      names.Nodup →
      n.name ∈ names →
      dictGet n.name tagging = some n.tags →
      groupingTags tagPfx n.tags = [t] →
      (∀ m ∈ names, ∀ u ∈ groupingTags tagPfx ((dictGet m tagging).getD []),
        ∀ m' ∈ names, strDropLen tagPfx u ≠ m') →
      ∀ sn, dictGet n.name st.group_mapping = some sn → n ∈ sn →
      ∃ s', dictGet (strDropLen tagPfx t) st'.group_mapping = some s' ∧ n ∈ s' ∧
        dictGet n.name st'.group_mapping = none := by
  intro names
  induction names with
  | nil =>
    intro st st' _ _ hmem
    cases hmem
  | cons m rest ih =>
    intro st st' hrun hnodup hmem hgetn htag hdisj sn hsn hnsn
    rw [tagLoop] at hrun
    by_cases hgt : (groupingTags tagPfx ((dictGet m tagging).getD [])).length > 1
    · rw [if_pos hgt] at hrun
      cases hrun
    · rw [if_neg hgt] at hrun
      by_cases hmn : m = n.name
      · subst hmn
        have hge : groupingTags tagPfx ((dictGet n.name tagging).getD []) = [t] := by
          rw [hgetn]
          exact htag
        rw [hge] at hrun
        simp only [List.foldl_cons, List.foldl_nil] at hrun
        have htmem : t ∈ groupingTags tagPfx ((dictGet n.name tagging).getD []) := by
          rw [hge]
          exact List.mem_cons_self _ _
        have hXn : strDropLen tagPfx t ≠ n.name :=
          hdisj n.name (List.mem_cons_self _ _) t htmem n.name (List.mem_cons_self _ _)
        obtain ⟨cur, hcur⟩ := applyTag_get_target tagPfx n.name t st hXn
        have htarget : n ∈ setUnion cur ((dictGet n.name st.group_mapping).getD []) := by
          rw [hsn]
          exact mem_setUnion_right hnsn
        have herase := applyTag_get_erased tagPfx n.name t st
        exact tagLoop_preserve tagPfx tagging (strDropLen tagPfx t) n.name n rest _ st' hrun
          (fun m' hm' hh => (List.nodup_cons.mp hnodup).1 (hh ▸ hm'))
          (fun m' hm' hh =>
            hdisj n.name (List.mem_cons_self _ _) t htmem m' (List.mem_cons_of_mem _ hm')
              hh.symm)
          (fun m' hm' u hu hh =>
            hdisj m' (List.mem_cons_of_mem _ hm') u hu n.name (List.mem_cons_self _ _) hh)
          _ hcur htarget herase
      · have hmem' : n.name ∈ rest := by
          rcases List.mem_cons.mp hmem with h1 | h1
          · exact absurd h1.symm hmn
          · exact h1
        have hdisj' : ∀ m' ∈ rest, ∀ u ∈ groupingTags tagPfx ((dictGet m' tagging).getD []),
            ∀ m'' ∈ rest, strDropLen tagPfx u ≠ m'' :=
          fun m' hm' u hu m'' hm'' =>
            hdisj m' (List.mem_cons_of_mem _ hm') u hu m'' (List.mem_cons_of_mem _ hm'')
        rcases hg : groupingTags tagPfx ((dictGet m tagging).getD []) with _ | ⟨u, us⟩
        · rw [hg] at hrun
          exact ih _ _ hrun (List.nodup_cons.mp hnodup).2 hmem' hgetn htag hdisj'
            sn hsn hnsn
        · have hus : us = [] := by
            cases us with
            | nil => rfl
            | cons v vs =>
              exfalso
              apply hgt
              rw [hg]
              simp only [List.length_cons]
              omega
          subst hus
          rw [hg] at hrun
          simp only [List.foldl_cons, List.foldl_nil] at hrun
          have hsn1 : dictGet n.name (applyTag tagPfx m u st).group_mapping = some sn := by
            rw [applyTag_get_other tagPfx m u st n.name
              (fun hh =>
                hdisj m (List.mem_cons_self _ _) u (by rw [hg]; exact List.mem_cons_self _ _)
                  n.name hmem hh.symm)
              (fun hh => hmn hh.symm)]
            exact hsn
          exact ih _ _ hrun (List.nodup_cons.mp hnodup).2 hmem' hgetn htag hdisj'
            sn hsn1 hnsn

/-- C2 counterexample: a node named `"X"` whose single grouping tag is
`"group.X"` is merged into the group `"X"` — which is the node's own entry —
and the subsequent `del` removes the whole entry, so the returned `Grouping`
has an empty `nodes_mapping`: the node is in no group at all, refuting
`N ∈ nodes_mapping["X"]` as stated. -/
theorem tagGroup_merge_counterexample :
    groupingTags "group." ["group.X"] = ["group.X"] ∧
    strDropLen "group." "group.X" = "X" ∧
    (tagGroup "group." [(⟨"X", ["group.X"]⟩, [])]).toOption =
      some { nodes_mapping := [], dependencies := [("X", [])] } := by
  decide

/-- C2 (amended): provided node names are distinct and no tag-derived group
name coincides with a node name, every node `n` carrying exactly one grouping
tag `t` appears in `nodes_mapping` under the group name `t` minus the prefix,
and `nodes_mapping` retains no entry under `n`'s own name.  (The disjointness
proviso is forced by the counterexample, where the group name equals the
node's own name.) -/
theorem tagGroup_merge_complete (tagPfx : String) (nd : List (Node × List Node))
    (g : Grouping) (n : Node) (ps : List Node) (t : String)
    (hnd : (nd.map (fun p => p.1.name)).Nodup)
    (hdisj : ∀ q ∈ nd, ∀ u ∈ groupingTags tagPfx q.1.tags, ∀ r ∈ nd,
      strDropLen tagPfx u ≠ r.1.name)
    (hmem : (n, ps) ∈ nd)
    (htag : groupingTags tagPfx n.tags = [t])
    (hok : tagGroup tagPfx nd = Except.ok g) :
    (∃ s, dictGet (strDropLen tagPfx t) g.nodes_mapping = some s ∧ n ∈ s) ∧
    dictGet n.name g.nodes_mapping = none := by
  simp only [tagGroup] at hok
  split at hok
  · cases hok
  · rename_i st heq
    have hgm := (mkGrouping_ok hok).1
    have hmap : nd.foldl (fun acc p => dictSet p.1.name [p.1] acc) [] =
        nd.map (fun p => (p.1.name, [p.1])) :=
      foldl_dictSet_map nd (fun p => p.1.name) (fun p => [p.1]) hnd
    have htg : getTagging nd = nd.map (fun p => (p.1.name, p.1.tags)) := by
      simp only [getTagging]
      exact foldl_dictSet_map nd (fun p => p.1.name) (fun p => p.1.tags) hnd
    have hgetn : dictGet n.name (getTagging nd) = some n.tags := by
      rw [htg]
      exact dictGet_map_of_mem (fun q => q.1.name) (fun q => q.1.tags) hnd hmem
    rw [hmap] at heq
    have hnames : (nd.map (fun p => (p.1.name, [p.1]))).map Prod.fst =
        nd.map (fun p => p.1.name) := by
      rw [List.map_map]
      rfl
    rw [hnames] at heq
    have hmemname : n.name ∈ nd.map (fun p => p.1.name) := by
      have := List.mem_map_of_mem (fun p : Node × List Node => p.1.name) hmem
      simpa using this
    have hdisj2 : ∀ m ∈ nd.map (fun p => p.1.name),
        ∀ u ∈ groupingTags tagPfx ((dictGet m (getTagging nd)).getD []),
        ∀ m' ∈ nd.map (fun p => p.1.name), strDropLen tagPfx u ≠ m' := by
      intro m hm u hu m' hm'
      obtain ⟨q, hq, hqm⟩ := List.mem_map.mp hm
      obtain ⟨r, hr, hrm⟩ := List.mem_map.mp hm'
      subst hqm
      subst hrm
      have hq' : dictGet q.1.name (getTagging nd) = some q.1.tags := by
        rw [htg]
        exact dictGet_map_of_mem (fun x => x.1.name) (fun x => x.1.tags) hnd hq
      rw [hq'] at hu
      exact hdisj q hq u hu r hr
    have hsn : dictGet n.name (nd.map (fun p => (p.1.name, [p.1]))) = some [n] :=
      dictGet_map_of_mem (fun q => q.1.name) (fun q => [q.1]) hnd hmem
    obtain ⟨s', hs', hns', hnone⟩ := tagLoop_merge tagPfx (getTagging nd) n t
      (nd.map (fun p => p.1.name)) _ st heq hnd hmemname hgetn htag hdisj2
      [n] hsn (List.mem_cons_self _ _)
    rw [hgm]
    exact ⟨⟨s', hs', hns'⟩, hnone⟩

/-- Closed instance of C2 (amended): in the `A → B → C` example, node `B`
lands in group `"bc"` and keeps no entry of its own. -/
theorem tagGroup_merge_complete_witness :
    (∃ s, dictGet "bc"
        [("A", [(⟨"A", []⟩ : Node)]),
         ("bc", [(⟨"B", ["group.bc"]⟩ : Node), ⟨"C", ["group.bc"]⟩])] = some s ∧
        (⟨"B", ["group.bc"]⟩ : Node) ∈ s) ∧
    dictGet "B"
        [("A", [(⟨"A", []⟩ : Node)]),
         ("bc", [(⟨"B", ["group.bc"]⟩ : Node), ⟨"C", ["group.bc"]⟩])] = none :=
  tagGroup_merge_complete "group."
    [(⟨"A", []⟩, []),
     (⟨"B", ["group.bc"]⟩, [⟨"A", []⟩]),
     (⟨"C", ["group.bc"]⟩, [⟨"B", ["group.bc"]⟩])]
    { nodes_mapping :=
        [("A", [⟨"A", []⟩]), ("bc", [⟨"B", ["group.bc"]⟩, ⟨"C", ["group.bc"]⟩])]
      dependencies := [("A", []), ("bc", ["A"])] }
    ⟨"B", ["group.bc"]⟩ [⟨"A", []⟩] "group.bc"
    (by decide) (by decide) (by decide) (by decide) rfl

theorem nodupKeys_entry_unique {α : Type} {d : List (String × α)} (h : nodupKeys d)
    {p q : String × α} (hp : p ∈ d) (hq : q ∈ d) (hpq : p.1 = q.1) : p = q := by
  induction d with
  | nil => cases hp
  | cons r rest ih =>
    have hr := List.nodup_cons.mp h
    rcases List.mem_cons.mp hp with hp1 | hp1 <;> rcases List.mem_cons.mp hq with hq1 | hq1
    · rw [hp1, hq1]
    · exfalso
      apply hr.1
      rw [← hp1, hpq]
      exact List.mem_map_of_mem Prod.fst hq1
    · exfalso
      apply hr.1
      rw [← hq1, ← hpq]
      exact List.mem_map_of_mem Prod.fst hp1
    · exact ih hr.2 hp1 hq1

theorem closedDeps_step (ordered : List String) (data : List (String × List String))
    (hcov : ∀ p ∈ data, p.2.isEmpty → p.1 ∈ ordered)
    (h : closedDeps data) : closedDeps (toposortStep ordered data) := by
  intro p' hp' x hx
  unfold toposortStep at hp'
  obtain ⟨r, hr, hr'⟩ := List.mem_map.mp hp'
  have hrdata := List.mem_filter.mp hr
  rw [← hr'] at hx
  simp only at hx
  have hxr := List.mem_filter.mp hx
  have hxord : ¬ x ∈ ordered := by simpa using hxr.2
  obtain ⟨q, hq, hq1⟩ := h r hrdata.1 x hxr.1
  have hqne : ¬ q.2.isEmpty := by
    intro hempty
    apply hxord
    rw [← hq1]
    exact hcov q hq hempty
  refine ⟨(q.1, q.2.filter (fun d => ¬ d ∈ ordered)), ?_, hq1⟩
  unfold toposortStep
  exact List.mem_map_of_mem _ (List.mem_filter.mpr ⟨hq, by simpa using hqne⟩)

theorem nodupKeys_step (ordered : List String) (data : List (String × List String))
    (h : nodupKeys data) : nodupKeys (toposortStep ordered data) := by
  unfold toposortStep nodupKeys
  rw [List.map_map]
  have hsub : (data.filter (fun p => ¬ p.2.isEmpty)).map
      (Prod.fst ∘ fun p => (p.1, p.2.filter (fun d => ¬ d ∈ ordered))) =
      (data.filter (fun p => ¬ p.2.isEmpty)).map Prod.fst := rfl
  rw [hsub]
  exact h.sublist ((List.filter_sublist data).map Prod.fst)

theorem mem_ordered_of_empty {data : List (String × List String)}
    {p : String × List String} (hp : p ∈ data) (hempty : p.2.isEmpty) :
    p.1 ∈ (data.filter (fun q => q.2.isEmpty)).map Prod.fst :=
  List.mem_map_of_mem Prod.fst (List.mem_filter.mpr ⟨hp, hempty⟩)

theorem not_empty_of_not_ordered {data : List (String × List String)}
    {p : String × List String} (hp : p ∈ data)
    (hord : ¬ p.1 ∈ (data.filter (fun q => q.2.isEmpty)).map Prod.fst) :
    ¬ p.2.isEmpty :=
  fun hempty => hord (mem_ordered_of_empty hp hempty)

theorem mem_step_of_not_empty {data : List (String × List String)} (ordered : List String)
    {p : String × List String} (hp : p ∈ data) (hne : ¬ p.2.isEmpty) :
    (p.1, p.2.filter (fun d => ¬ d ∈ ordered)) ∈ toposortStep ordered data := by
  unfold toposortStep
  exact List.mem_map_of_mem _ (List.mem_filter.mpr ⟨hp, by simpa using hne⟩)

/-- Every key of the data reaches some level of a successful Kahn run. -/
theorem toposortLoop_rank_keys :
    ∀ (fuel : Nat) (data : List (String × List String)) (levels : List (List String)),
      toposortLoop fuel data = some levels →
      ∀ p ∈ data, ∃ j, rankIn levels p.1 = some j := by
  intro fuel
  induction fuel with
  | zero =>
    intro data levels h p hp
    cases data with
    | nil => cases hp
    | cons q qs => cases h
  | succ fuel ih =>
    intro data levels h p hp
    cases data with
    | nil => cases hp
    | cons q qs =>
      simp only [toposortLoop] at h
      by_cases hord : (((q :: qs).filter (fun r => r.2.isEmpty)).map Prod.fst).isEmpty
      · rw [if_pos hord] at h
        cases h
      · rw [if_neg hord] at h
        rcases hrec : toposortLoop fuel
            (toposortStep (((q :: qs).filter (fun r => r.2.isEmpty)).map Prod.fst)
              (q :: qs)) with _ | rest
        · rw [hrec] at h
          cases h
        · rw [hrec] at h
          cases h
          by_cases hpord : p.1 ∈ ((q :: qs).filter (fun r => r.2.isEmpty)).map Prod.fst
          · exact ⟨0, by rw [rankIn, if_pos hpord]⟩
          · have hne := not_empty_of_not_ordered hp hpord
            obtain ⟨j', hj'⟩ := ih _ rest hrec _ (mem_step_of_not_empty _ hp hne)
            exact ⟨j' + 1, by rw [rankIn, if_neg hpord, hj']; rfl⟩

/-- In a successful Kahn run over closed data with distinct keys, every
dependency of an entry lands in a strictly earlier level than the entry's
key. -/
theorem toposortLoop_rank :
    ∀ (fuel : Nat) (data : List (String × List String)) (levels : List (List String)),
      toposortLoop fuel data = some levels → closedDeps data → nodupKeys data →
      ∀ p ∈ data, ∀ d ∈ p.2,
        ∃ i j, rankIn levels d = some i ∧ rankIn levels p.1 = some j ∧ i < j := by
  intro fuel
  induction fuel with
  | zero =>
    intro data levels h _ _ p hp
    cases data with
    | nil => cases hp
    | cons q qs => cases h
  | succ fuel ih =>
    intro data levels h hclosed hnodup p hp d hd
    cases data with
    | nil => cases hp
    | cons q qs =>
      simp only [toposortLoop] at h
      by_cases hord : (((q :: qs).filter (fun r => r.2.isEmpty)).map Prod.fst).isEmpty
      · rw [if_pos hord] at h
        cases h
      · rw [if_neg hord] at h
        rcases hrec : toposortLoop fuel
            (toposortStep (((q :: qs).filter (fun r => r.2.isEmpty)).map Prod.fst)
              (q :: qs)) with _ | rest
        · rw [hrec] at h
          cases h
        · rw [hrec] at h
          cases h
          set ordered := ((q :: qs).filter (fun r => r.2.isEmpty)).map Prod.fst with hod
          have hpord : ¬ p.1 ∈ ordered := by
            intro hmem
            obtain ⟨r, hr, hr1⟩ := List.mem_map.mp hmem
            have hrf := List.mem_filter.mp hr
            have : r = p := nodupKeys_entry_unique hnodup hrf.1 hp hr1
            rw [this] at hrf
            have : p.2 = [] := by
              cases hp2 : p.2 with
              | nil => rfl
              | cons a as =>
                rw [hp2] at hrf
                simp at hrf
            rw [this] at hd
            cases hd
          have hpne : ¬ p.2.isEmpty := not_empty_of_not_ordered hp hpord
          have hpstep := mem_step_of_not_empty ordered hp hpne
          by_cases hdord : d ∈ ordered
          · obtain ⟨j', hj'⟩ := toposortLoop_rank_keys fuel _ rest hrec _ hpstep
            refine ⟨0, j' + 1, ?_, ?_, ?_⟩
            · rw [rankIn, if_pos hdord]
            · rw [rankIn, if_neg hpord, hj']
              rfl
            · omega
          · have hdstep : d ∈ (p.2.filter (fun x => ¬ x ∈ ordered)) :=
              List.mem_filter.mpr ⟨hd, by simpa using hdord⟩
            obtain ⟨i', j', hi', hj', hij⟩ := ih _ rest hrec
              (closedDeps_step ordered _ (fun r hr he => mem_ordered_of_empty hr he)
                hclosed)
              (nodupKeys_step ordered _ hnodup)
              _ hpstep d hdstep
            refine ⟨i' + 1, j' + 1, ?_, ?_, ?_⟩
            · rw [rankIn, if_neg hdord, hi']
              rfl
            · rw [rankIn, if_neg hpord, hj']
              rfl
            · omega

theorem closedDeps_prep (data : List (String × List String)) :
    closedDeps (toposortPrep data) := by
  intro p hp x hx
  unfold toposortPrep at hp ⊢
  rcases List.mem_append.mp hp with hp1 | hp1
  · obtain ⟨r, hr, hr'⟩ := List.mem_map.mp hp1
    have hxflat : x ∈ ((data.map (fun p => (p.1, p.2.filter (fun d => d ≠ p.1)))).map
        Prod.snd).flatten := by
      apply List.mem_flatten.mpr
      refine ⟨p.2, ?_, hx⟩
      have : p.2 = (Prod.snd p) := rfl
      exact List.mem_map_of_mem Prod.snd hp1
    by_cases hxkeys : x ∈ (data.map (fun p => (p.1, p.2.filter (fun d => d ≠ p.1)))).map
        Prod.fst
    · obtain ⟨q, hq, hq1⟩ := List.mem_map.mp hxkeys
      exact ⟨q, List.mem_append_left _ hq, hq1⟩
    · refine ⟨(x, []), List.mem_append_right _ ?_, rfl⟩
      apply List.mem_map_of_mem (fun d => (d, ([] : List String)))
      apply List.mem_dedup.mpr
      exact List.mem_filter.mpr ⟨hxflat, by simpa using hxkeys⟩
  · obtain ⟨y, _, hy'⟩ := List.mem_map.mp hp1
    rw [← hy'] at hx
    cases hx

theorem nodupKeys_prep (data : List (String × List String)) (h : nodupKeys data) :
    nodupKeys (toposortPrep data) := by
  unfold toposortPrep nodupKeys
  rw [List.map_append, List.map_map, List.map_map]
  have h1 : data.map (Prod.fst ∘ fun p => (p.1, p.2.filter (fun d => d ≠ p.1))) =
      data.map Prod.fst := rfl
  have h2 : ∀ (l : List String),
      l.map (Prod.fst ∘ fun d => (d, ([] : List String))) = l := by
    intro l
    induction l with
    | nil => rfl
    | cons a as iha =>
      simp only [List.map_cons, iha]
      rfl
  rw [h1, h2]
  apply List.Nodup.append h (List.nodup_dedup _)
  intro x hx1 hx2
  have := List.mem_filter.mp (List.mem_dedup.mp hx2)
  apply (by simpa using this.2 : ¬ x ∈ (data.map
    (fun p => (p.1, p.2.filter (fun d => d ≠ p.1)))).map Prod.fst)
  have : (data.map (fun p => (p.1, p.2.filter (fun d => d ≠ p.1)))).map Prod.fst =
      data.map Prod.fst := by
    rw [List.map_map]
    rfl
  rw [this]
  exact hx1

theorem strictDepRel_prep {data : List (String × List String)} {a b : String}
    (h : strictDepRel data a b) :
    ∃ p, p ∈ toposortPrep data ∧ p.1 = a ∧ b ∈ p.2 := by
  obtain ⟨⟨p, hp, hpa, hb⟩, hne⟩ := h
  refine ⟨(p.1, p.2.filter (fun d => d ≠ p.1)), ?_, hpa, ?_⟩
  · unfold toposortPrep
    exact List.mem_append_left _ (List.mem_map_of_mem _ hp)
  · apply List.mem_filter.mpr
    refine ⟨hb, ?_⟩
    rw [hpa]
    simpa using fun hh => hne hh.symm

theorem toposort_rank_edge {data : List (String × List String)}
    {levels : List (List String)} {a b : String}
    (hnd : nodupKeys data) (h : toposort data = some levels)
    (hrel : strictDepRel data a b) :
    ∃ i j, rankIn levels b = some i ∧ rankIn levels a = some j ∧ i < j := by
  unfold toposort at h
  by_cases hdata : data.isEmpty
  · exfalso
    obtain ⟨⟨p, hp, _, _⟩, _⟩ := hrel
    cases data with
    | nil => cases hp
    | cons q qs => cases hdata
  · rw [if_neg hdata] at h
    obtain ⟨p, hp, hpa, hb⟩ := strictDepRel_prep hrel
    have := toposortLoop_rank _ _ _ h (closedDeps_prep data) (nodupKeys_prep data hnd)
      p hp b hb
    rw [hpa] at this
    exact this

theorem toposort_rank_transGen {data : List (String × List String)}
    {levels : List (List String)} {a b : String}
    (hnd : nodupKeys data) (h : toposort data = some levels)
    (hrel : Relation.TransGen (strictDepRel data) a b) :
    ∃ i j, rankIn levels b = some i ∧ rankIn levels a = some j ∧ i < j := by
  induction hrel with
  | single hab => exact toposort_rank_edge hnd h hab
  | tail hab hbc ih =>
    obtain ⟨i, j, hi, hj, hij⟩ := ih
    obtain ⟨i', j', hi', hj', hij'⟩ := toposort_rank_edge hnd h hbc
    rw [hi] at hj'
    cases hj'
    exact ⟨i', j, hi', hj, by omega⟩

theorem dictGet_isSome_of_key {α : Type} {d : List (String × α)} {a : String}
    (h : a ∈ d.map Prod.fst) : (dictGet a d).isSome := by
  induction d with
  | nil => cases h
  | cons p rest ih =>
    by_cases hp : p.1 = a
    · simp [dictGet, hp]
    · simp only [List.map_cons, List.mem_cons] at h
      rcases h with h1 | h1
      · exact absurd h1.symm hp
      · simpa [dictGet, hp] using ih h1

theorem length_filter_lt {α : Type} (p : α → Bool) :
    ∀ (l : List α) (x : α), x ∈ l → ¬ p x → (l.filter p).length < l.length := by
  intro l
  induction l with
  | nil => intro x hx; cases hx
  | cons a as ih =>
    intro x hx hpx
    rcases List.mem_cons.mp hx with h1 | h1
    · subst h1
      rw [List.filter_cons, if_neg (by simpa using hpx)]
      have := (List.filter_sublist as (p := p)).length_le
      simp only [List.length_cons]
      omega
    · by_cases hpa : p a
      · rw [List.filter_cons, if_pos (by simpa using hpa)]
        have := ih x h1 hpx
        simp only [List.length_cons]
        omega
      · rw [List.filter_cons, if_neg (by simpa using hpa)]
        have := ih x h1 hpx
        simp only [List.length_cons]
        omega

/-- In a non-empty, closed dependency dictionary with no `depRel`-cycle, some
entry has an empty dependency set (Kahn progress). -/
theorem exists_empty_dep_entry (data : List (String × List String))
    (hne : data ≠ [])
    (hclosed : closedDeps data)
    (hacyc : ∀ a, ¬ Relation.TransGen (depRel data) a a) :
    ∃ p ∈ data, p.2.isEmpty := by
  by_contra hcon
  push_neg at hcon
  have hstep : ∀ b, b ∈ data.map Prod.fst →
      depRel data b (chooseDep data b) ∧ chooseDep data b ∈ data.map Prod.fst := by
    intro b hb
    have hsome := dictGet_isSome_of_key hb
    rcases hget : dictGet b data with _ | ds
    · rw [hget] at hsome
      cases hsome
    · have hmem := dictGet_mem hget
      have hdsne := hcon (b, ds) hmem
      cases ds with
      | nil => simp at hdsne
      | cons c cs =>
        have hch : chooseDep data b = c := by
          unfold chooseDep
          rw [hget]
        constructor
        · exact ⟨(b, c :: cs), hmem, rfl, by rw [hch]; exact List.mem_cons_self _ _⟩
        · obtain ⟨r, hr, hr1⟩ := hclosed (b, c :: cs) hmem c (List.mem_cons_self _ _)
          rw [hch, ← hr1]
          exact List.mem_map_of_mem Prod.fst hr
  obtain ⟨q, qs, rfl⟩ : ∃ q qs, data = q :: qs := by
    cases data with
    | nil => exact absurd rfl hne
    | cons q qs => exact ⟨q, qs, rfl⟩
  have hkeys : ∀ n, depChain (q :: qs) q.1 n ∈ (q :: qs).map Prod.fst := by
    intro n
    induction n with
    | zero => exact List.mem_map_of_mem Prod.fst (List.mem_cons_self _ _)
    | succ n ihn => exact (hstep _ ihn).2
  have hedge : ∀ n, depRel (q :: qs) (depChain (q :: qs) q.1 n)
      (depChain (q :: qs) q.1 (n + 1)) :=
    fun n => (hstep _ (hkeys n)).1
  have hchain : ∀ i j, i < j → Relation.TransGen (depRel (q :: qs))
      (depChain (q :: qs) q.1 i) (depChain (q :: qs) q.1 j) := by
    intro i j hij
    induction j with
    | zero => omega
    | succ j ihj =>
      rcases Nat.lt_succ_iff_lt_or_eq.mp hij with h1 | h1
      · exact Relation.TransGen.tail (ihj h1) (hedge j)
      · subst h1
        exact Relation.TransGen.single (hedge i)
  have hc : ((q :: qs).map Prod.fst).toFinset.card <
      (Finset.univ : Finset (Fin (((q :: qs).map Prod.fst).length + 1))).card := by
    have := ((q :: qs).map Prod.fst).toFinset_card_le
    simp only [Finset.card_univ, Fintype.card_fin]
    omega
  obtain ⟨i, _, j, _, hij, heq⟩ :=
    Finset.exists_ne_map_eq_of_card_lt_of_maps_to hc
      (fun n _ => List.mem_toFinset.mpr (hkeys n.val))
  have hvij : i.val ≠ j.val := fun hh => hij (Fin.ext hh)
  rcases Nat.lt_or_ge i.val j.val with h1 | h1
  · have := hchain i.val j.val h1
    rw [heq] at this
    exact hacyc _ this
  · have h2 : j.val < i.val := lt_of_le_of_ne h1 (Ne.symm hvij)
    have := hchain j.val i.val h2
    rw [← heq] at this
    exact hacyc _ this

/-- The Kahn loop succeeds on closed, `depRel`-acyclic data given at least
`data.length` fuel. -/
theorem toposortLoop_success :
    ∀ (fuel : Nat) (data : List (String × List String)),
      data.length ≤ fuel → closedDeps data →
      (∀ a, ¬ Relation.TransGen (depRel data) a a) →
      ∃ levels, toposortLoop fuel data = some levels := by
  intro fuel
  induction fuel with
  | zero =>
    intro data hlen _ _
    cases data with
    | nil => exact ⟨[], rfl⟩
    | cons q qs => simp at hlen
  | succ fuel ih =>
    intro data hlen hclosed hacyc
    cases data with
    | nil => exact ⟨[], rfl⟩
    | cons q qs =>
      obtain ⟨p, hp, hpe⟩ := exists_empty_dep_entry (q :: qs) (by simp) hclosed hacyc
      have hpord : p.1 ∈ ((q :: qs).filter (fun r => r.2.isEmpty)).map Prod.fst :=
        mem_ordered_of_empty hp hpe
      have hordne : ¬ (((q :: qs).filter (fun r => r.2.isEmpty)).map Prod.fst).isEmpty := by
        intro hh
        rw [List.isEmpty_iff] at hh
        rw [hh] at hpord
        cases hpord
      have hlen2 : (toposortStep (((q :: qs).filter (fun r => r.2.isEmpty)).map Prod.fst)
          (q :: qs)).length ≤ fuel := by
        unfold toposortStep
        rw [List.length_map]
        have := length_filter_lt (fun r => ¬ r.2.isEmpty) (q :: qs) p hp
          (by simpa using hpe)
        simp only [List.length_cons] at hlen this ⊢
        omega
      have hclosed2 := closedDeps_step _ _
        (fun r hr he => mem_ordered_of_empty hr he) hclosed
      have hacyc2 : ∀ a, ¬ Relation.TransGen
          (depRel (toposortStep (((q :: qs).filter (fun r => r.2.isEmpty)).map Prod.fst)
            (q :: qs))) a a := by
        intro a hcyc
        apply hacyc a
        refine Relation.TransGen.mono ?_ hcyc
        rintro x y ⟨r', hr', hr1, hy⟩
        unfold toposortStep at hr'
        obtain ⟨r0, hr0, hr0'⟩ := List.mem_map.mp hr'
        rw [← hr0'] at hr1 hy
        simp only at hr1 hy
        exact ⟨r0, (List.mem_filter.mp hr0).1, hr1, (List.mem_filter.mp hy).1⟩
      obtain ⟨rest, hrest⟩ := ih _ hlen2 hclosed2 hacyc2
      refine ⟨((q :: qs).filter (fun r => r.2.isEmpty)).map Prod.fst :: rest, ?_⟩
      simp only [toposortLoop]
      rw [if_neg hordne, hrest]

/-- `toposort` succeeds on every dependency dictionary without a cycle
through two or more distinct items (self dependencies are discarded by the
preprocessing). -/
theorem toposort_some (data : List (String × List String))
    (hacyc : ∀ a, ¬ Relation.TransGen (strictDepRel data) a a) :
    ∃ levels, toposort data = some levels := by
  unfold toposort
  by_cases hempty : data.isEmpty
  · rw [if_pos hempty]
    exact ⟨[], rfl⟩
  · rw [if_neg hempty]
    apply toposortLoop_success _ _ (le_refl _) (closedDeps_prep data)
    intro a hcyc
    apply hacyc a
    refine Relation.TransGen.mono ?_ hcyc
    rintro x y ⟨r, hr, hrx, hy⟩
    unfold toposortPrep at hr
    rcases List.mem_append.mp hr with hr1 | hr1
    · obtain ⟨p, hp, hp'⟩ := List.mem_map.mp hr1
      rw [← hp'] at hrx hy
      simp only at hrx hy
      have hyp := List.mem_filter.mp hy
      refine ⟨⟨p, hp, hrx, hyp.1⟩, ?_⟩
      intro hxy
      have : ¬ (y = p.1) := by simpa using hyp.2
      rw [hrx] at this
      exact this hxy.symm
    · obtain ⟨z, _, hz'⟩ := List.mem_map.mp hr1
      rw [← hz'] at hy
      cases hy

/-- C5: `IdentityNodeGrouper.group` returns one singleton group per node,
named after the node, and its group dependency graph is the input graph under
the node-to-name mapping: the entry of `k.name` is exactly the list of names
of `k`'s parents.  Moreover the construction succeeds on every input whose
name graph has no cycle through two or more distinct names — in particular on
every pipeline dependency graph, which is acyclic by construction. -/
theorem identityGroup_iso (nd : List (Node × List Node)) (g : Grouping) :
    ((nd.map (fun p => p.1.name)).Nodup → identityGroup nd = Except.ok g →
      g.nodes_mapping = nd.map (fun p => (p.1.name, [p.1])) ∧
      g.dependencies = nd.map (fun p => (p.1.name, p.2.map Node.name)) ∧
      ∀ p ∈ nd, dictGet p.1.name g.nodes_mapping = some [p.1] ∧
        dictGet p.1.name g.dependencies = some (p.2.map Node.name)) ∧
    ((∀ a, ¬ Relation.TransGen
        (strictDepRel (nd.map (fun p => (p.1.name, p.2.map Node.name)))) a a) →
      ∃ g', identityGroup nd = Except.ok g') := by
  constructor
  · intro hnd h
    unfold identityGroup at h
    obtain ⟨hm, hd⟩ := mkGrouping_ok h
    refine ⟨hm, hd, ?_⟩
    intro p hp
    constructor
    · rw [hm]
      exact dictGet_map_of_mem (fun q => q.1.name) (fun q => [q.1]) hnd hp
    · rw [hd]
      exact dictGet_map_of_mem (fun q => q.1.name) (fun q => q.2.map Node.name) hnd hp
  · intro hacyc
    obtain ⟨levels, hlev⟩ :=
      toposort_some (nd.map (fun p => (p.1.name, p.2.map Node.name))) hacyc
    refine ⟨{ nodes_mapping := nd.map (fun p => (p.1.name, [p.1]))
              dependencies := nd.map (fun p => (p.1.name, p.2.map Node.name)) }, ?_⟩
    unfold identityGroup mkGrouping
    rw [if_pos (by rw [hlev]; rfl)]

/-- Closed instance of C5: identity grouping of `A ← B` maps `"B"` to its
parent name list `["A"]`. -/
theorem identityGroup_iso_witness :
    dictGet "B" [("A", ([] : List String)), ("B", ["A"])] = some ["A"] :=
  (((identityGroup_iso [(⟨"A", []⟩, []), (⟨"B", []⟩, [⟨"A", []⟩])]
      { nodes_mapping := [("A", [⟨"A", []⟩]), ("B", [⟨"B", []⟩])]
        dependencies := [("A", []), ("B", ["A"])] }).1
      (by decide) rfl).2.2 (⟨"B", []⟩, [⟨"A", []⟩]) (by decide)).2

/-- C1 counterexample: a `Grouping` whose dependency dictionary is the
self-loop `{"x": {"x"}}` has a cycle, yet construction succeeds — the
`toposort` library explicitly ignores self dependencies, so no
`GroupingException` is raised. -/
theorem mkGrouping_self_loop_counterexample :
    hasCycle [("x", ["x"])] ∧
    (mkGrouping [] [("x", ["x"])]).toOption =
      some { nodes_mapping := [], dependencies := [("x", ["x"])] } := by
  constructor
  · exact ⟨"x", Relation.TransGen.single
      ⟨("x", ["x"]), List.mem_singleton.mpr rfl, rfl, List.mem_singleton.mpr rfl⟩⟩
  · decide

/-- C1 (amended): constructing a `Grouping` raises `GroupingException`
exactly when the dependency dictionary has a cycle through two or more
distinct group names.  Forward (with distinct keys, as in a Python dict): a
successful construction keeps the dictionary unchanged and it admits no such
cycle — contrapositively, a multi-name cycle raises at construction time.
Backward: without such a cycle construction succeeds, so in particular a pure
self-loop, although a cycle, is accepted (the `toposort` library discards
self dependencies). -/
theorem mkGrouping_acyclic (nm : List (String × List Node))
    (deps : List (String × List String)) (g : Grouping) :
    (nodupKeys deps → mkGrouping nm deps = Except.ok g →
      g.dependencies = deps ∧
      ∀ a, ¬ Relation.TransGen (strictDepRel g.dependencies) a a) ∧
    ((∀ a, ¬ Relation.TransGen (strictDepRel deps) a a) →
      ∃ g', mkGrouping nm deps = Except.ok g') := by
  constructor
  · intro hnd h
    have hdp := (mkGrouping_ok h).2
    have hts := mkGrouping_ok_toposort h
    refine ⟨hdp, ?_⟩
    rw [hdp]
    intro a hcyc
    obtain ⟨levels, hlev⟩ := Option.isSome_iff_exists.mp hts
    obtain ⟨i, j, hi, hj, hij⟩ := toposort_rank_transGen hnd hlev hcyc
    rw [hi] at hj
    cases hj
    omega
  · intro hacyc
    obtain ⟨levels, hlev⟩ := toposort_some deps hacyc
    refine ⟨{ nodes_mapping := nm, dependencies := deps }, ?_⟩
    unfold mkGrouping
    rw [if_pos (by rw [hlev]; rfl)]

/-- Closed instance of C1 (amended): the acyclic two-entry dictionary is
accepted and indeed admits no nontrivial cyclic dependency on `"a"`. -/
theorem mkGrouping_acyclic_witness :
    ¬ Relation.TransGen (strictDepRel [("a", ["b"]), ("b", [])]) "a" "a" :=
  ((mkGrouping_acyclic [] [("a", ["b"]), ("b", [])]
    { nodes_mapping := [], dependencies := [("a", ["b"]), ("b", [])] }).1
    (by decide) rfl).2 "a"

end KedroVertexAI
